import Mathlib

/-!
# sacred-engine: deletion queue, frame ring buffer and fixed-format records

A shallow embedding of the parts of `src/vk_engine.h` and `src/vk_loader.h`
that carry logic, followed by theorems about them.

* `DeletionQueue` (`vk_engine.h`, lines 54-75): the deque of release functors,
  `push_function` and `flush`.
* `VulkanEngine.get_current_frame` (lines 153-166) and `FRAME_OVERLAP` (line 106).
* the byte layout of `ComputePushConstants` (lines 38-43) and of
  `GLTFMetallic_Roughness::MaterialConstants` (lines 119-127).
* `is_visible` and `MeshNode::Draw` (declared at lines 13-18 and 151; their
  bodies are not part of the two headers).
-/

namespace SacredEngine

/-! ## Deletion queue -/

/-- `struct DeletionQueue`: its only member is `deletors`, a
`std::deque<std::function<void()>>`.  The type `α` stands for the functors;
front of the deque = head of the list. -/
structure DeletionQueue (α : Type) where
  deletors : List α
  deriving DecidableEq

/-- A default-constructed `DeletionQueue`: the deque starts out empty. -/
def DeletionQueue.empty {α : Type} : DeletionQueue α := ⟨[]⟩

/-- The state the two member functions act on: the queue itself, the rest of the
program state `world` (everything a functor may read or write; the queue is not
part of it), and `calls`, the record of functor invocations so far, oldest
first. -/
structure Machine (α W : Type) where
  queue : DeletionQueue α
  world : W
  calls : List α
  deriving DecidableEq

/-- A fresh queue in a program state `w`, before anything was invoked. -/
def Machine.init {α W : Type} (w : W) : Machine α W := ⟨DeletionQueue.empty, w, []⟩

/-- `void push_function(std::function<void()>&& function) { deletors.push_back(function); }` -/
def push_function {α W : Type} (m : Machine α W) (function : α) : Machine α W :=
  { m with queue := ⟨m.queue.deletors ++ [function]⟩ }

/-- The loop of `flush`:
`for (auto it = deletors.rbegin(); it != deletors.rend(); it++) { (*it)(); }`.
`n` is the distance of the reverse iterator `it` from `rend()`, so `*it` is
`deletors[n - 1]`; `rbegin()` is `n = deletors.size()` and `rend()` is `n = 0`.
Calling the functor `f` turns the program state `w` into `exec f w`. -/
def flushLoop {α W : Type} (exec : α → W → W) (deletors : List α) :
    (n : Nat) → n ≤ deletors.length → W × List α → W × List α
  | 0, _, s => s
  | n + 1, h, (w, calls) =>
      let f := deletors.get ⟨n, h⟩
      flushLoop exec deletors n (Nat.le_of_succ_le h) (exec f w, calls ++ [f])

/-- `void flush()`: run the loop from `rbegin()`, then `deletors.clear()`. -/
def flush {α W : Type} (exec : α → W → W) (m : Machine α W) : Machine α W :=
  let r := flushLoop exec m.queue.deletors m.queue.deletors.length (Nat.le_refl _)
    (m.world, m.calls)
  { queue := ⟨[]⟩, world := r.1, calls := r.2 }

/-- One call on a queue: `push_function(f)` or `flush()`. -/
inductive Op (α : Type) where
  | push (f : α)
  | flush
  deriving DecidableEq

/-- Perform one call. -/
def step {α W : Type} (exec : α → W → W) (m : Machine α W) : Op α → Machine α W
  | .push f => push_function m f
  | .flush => flush exec m

/-- Perform a sequence of calls, first to last. -/
def runOps {α W : Type} (exec : α → W → W) (ops : List (Op α)) (m : Machine α W) :
    Machine α W :=
  ops.foldl (step exec) m

/-- Reference description: the functor of a `push_function` call, nothing for a `flush`. -/
def Op.pushed? {α : Type} : Op α → Option α
  | .push f => some f
  | .flush => none

/-- Reference description: is the call a `push_function`? -/
def Op.isPush {α : Type} : Op α → Bool
  | .push _ => true
  | .flush => false

/-- Reference description: the functors pushed after the last `flush` of `ops`
(all of them when `ops` has no `flush`), in push order. -/
def pushedSinceLastFlush {α : Type} (ops : List (Op α)) : List α :=
  (ops.reverse.takeWhile Op.isPush).reverse.filterMap Op.pushed?

/-- Reference description: the functors pushed before the last `flush` of `ops`
(none when `ops` has no `flush`), in push order. -/
def pushedBeforeLastFlush {α : Type} (ops : List (Op α)) : List α :=
  (ops.reverse.dropWhile Op.isPush).reverse.filterMap Op.pushed?

/-- Reference description: every functor pushed by `ops`, in push order. -/
def allPushed {α : Type} (ops : List (Op α)) : List α :=
  ops.filterMap Op.pushed?

/-- Reference description: what the calls `ops` have executed, flush by flush.
`pending` holds the functors pushed since the previous flush; a flush executes
them last-pushed first. -/
def executedBy {α : Type} : List (Op α) → List α → List α
  | [], _ => []
  | .push f :: ops, pending => executedBy ops (pending ++ [f])
  | .flush :: ops, pending => pending.reverse ++ executedBy ops []

/-! ## Frame ring buffer -/

/-- `constexpr unsigned int FRAME_OVERLAP = 2;` -/
def FRAME_OVERLAP : Nat := 2

/-- Smallest value of a 32-bit `int`. -/
def INT_MIN : Int := -2147483648

/-- Largest value of a 32-bit `int`. -/
def INT_MAX : Int := 2147483647

/-- Conversion of an `int` operand to `unsigned int` (32 bits), as the usual
arithmetic conversions do for `int % unsigned int`: the value modulo `2^32`. -/
def toUnsigned (n : Int) : Nat := (n % 4294967296).toNat

/-- Two's-complement reduction of an integer to the range of a 32-bit `int`
(what a frame counter holds after it wrapped around). -/
def wrapInt (z : Int) : Int := (z + 2147483648) % 4294967296 - 2147483648

/-- The subscript `_frameNumber % FRAME_OVERLAP` of `get_current_frame`:
`_frameNumber` is an `int`, `FRAME_OVERLAP` an `unsigned int`, so the `int` is
converted to `unsigned int` and the remainder is an unsigned remainder. -/
def frameIndex (frameNumber : Int) : Nat := toUnsigned frameNumber % FRAME_OVERLAP

/-- The members of `class VulkanEngine` that `get_current_frame` reads:
`FrameData _frames[FRAME_OVERLAP]` and `int _frameNumber {0}`.  `FrameData` is
kept abstract. -/
structure VulkanEngine (FrameData : Type) where
  _frames : List FrameData
  frames_size : _frames.length = FRAME_OVERLAP
  _frameNumber : Int

/-- `FrameData& get_current_frame() { return _frames[_frameNumber % FRAME_OVERLAP]; }`.
A subscript outside the array is `none`. -/
def VulkanEngine.get_current_frame {FrameData : Type} (e : VulkanEngine FrameData) :
    Option FrameData :=
  e._frames[frameIndex e._frameNumber]?

/-- The engine with its frame counter set to `n`, the array of slots unchanged. -/
def VulkanEngine.atFrame {FrameData : Type} (e : VulkanEngine FrameData) (n : Int) :
    VulkanEngine FrameData :=
  { e with _frameNumber := n }

/-! ## Fixed-format records -/

/-- Modelled from the spec: `float` occupies 4 bytes. -/
def sizeof_float : Nat := 4

/-- Modelled from the spec: `glm::vec4` (declared by the linear-algebra library,
not by these headers) is a vector of 4 floats with nothing else in it. -/
def sizeof_vec4 : Nat := 4 * sizeof_float

/-- A data member of a struct: its size in bytes, its alignment requirement and
the number of floats it holds. -/
structure Member where
  size : Nat
  align : Nat
  floats : Nat
  deriving DecidableEq

/-- A member declared `glm::vec4 name;`, for a `glm::vec4` of alignment `a`. -/
def Member.vec4 (a : Nat) : Member := ⟨sizeof_vec4, a, 4⟩

/-- A member declared `glm::vec4 name[n];`. -/
def Member.vec4Array (n a : Nat) : Member := ⟨n * sizeof_vec4, a, n * 4⟩

/-- Round the offset `off` up to the next multiple of `a`. -/
def alignUp (off a : Nat) : Nat := (off + a - 1) / a * a

/-- Lay the members out in declaration order starting at offset `off`: each
member goes to the next offset that meets its alignment.  Returns the offsets of
the members and the offset just past the last one. -/
def placeMembers : List Member → Nat → List Nat × Nat
  | [], off => ([], off)
  | m :: ms, off =>
      let r := placeMembers ms (alignUp off m.align + m.size)
      (alignUp off m.align :: r.1, r.2)

/-- Alignment of a struct: the largest alignment among its members. -/
def alignofStruct (ms : List Member) : Nat := ms.foldl (fun acc m => max acc m.align) 1

/-- Result of `sizeof` on a struct: the end of the last member, rounded up to the
struct's alignment. -/
def sizeofStruct (ms : List Member) : Nat :=
  alignUp (placeMembers ms 0).2 (alignofStruct ms)

/-- `struct ComputePushConstants { glm::vec4 data1; glm::vec4 data2; glm::vec4 data3;
glm::vec4 data4; };` -/
def ComputePushConstants (a : Nat) : List Member :=
  [Member.vec4 a, Member.vec4 a, Member.vec4 a, Member.vec4 a]

/-- `struct MaterialConstants { glm::vec4 colorFactors; glm::vec4 metal_rough_factors;
glm::vec4 extra[14]; };` -/
def MaterialConstants (a : Nat) : List Member :=
  [Member.vec4 a, Member.vec4 a, Member.vec4Array 14 a]

/-- Number of floats a struct holds. -/
def floatCount (ms : List Member) : Nat := (ms.map Member.floats).sum

/-- Byte offset of the `i`-th record in a buffer of `MaterialConstants` records
packed one after the other from offset 0. -/
def materialRecordOffset (a i : Nat) : Nat := i * sizeofStruct (MaterialConstants a)

/-- The offset as stored in `uint32_t dataBufferOffset` of `MaterialResources`. -/
def dataBufferOffset (a i : Nat) : Nat := materialRecordOffset a i % 4294967296

/-! ## Draw list and visibility

The headers declare `is_visible` and `MeshNode::Draw` and define the records
they work on; the two bodies, `Node`, `MaterialInstance` and `GPUMeshBuffers`
are outside the two headers and are modelled from the specification.  Floats
are idealised as exact rationals. -/

/-- A `glm::vec3`. -/
structure Vec3 where
  x : ℚ
  y : ℚ
  z : ℚ
  deriving DecidableEq

/-- A `glm::vec4`. -/
structure Vec4 where
  x : ℚ
  y : ℚ
  z : ℚ
  w : ℚ
  deriving DecidableEq

/-- A `glm::mat4`, stored by columns. -/
structure Mat4 where
  c0 : Vec4
  c1 : Vec4
  c2 : Vec4
  c3 : Vec4
  deriving DecidableEq

/-- Matrix times column vector. -/
def Mat4.mulVec (m : Mat4) (v : Vec4) : Vec4 :=
  ⟨m.c0.x * v.x + m.c1.x * v.y + m.c2.x * v.z + m.c3.x * v.w,
   m.c0.y * v.x + m.c1.y * v.y + m.c2.y * v.z + m.c3.y * v.w,
   m.c0.z * v.x + m.c1.z * v.y + m.c2.z * v.z + m.c3.z * v.w,
   m.c0.w * v.x + m.c1.w * v.y + m.c2.w * v.z + m.c3.w * v.w⟩

/-- Matrix times matrix. -/
def Mat4.mul (a b : Mat4) : Mat4 :=
  ⟨a.mulVec b.c0, a.mulVec b.c1, a.mulVec b.c2, a.mulVec b.c3⟩

/-- The three axes of the clip volume. -/
inductive Axis where
  | x
  | y
  | z
  deriving DecidableEq

/-- Coordinate of a point on an axis. -/
def Vec3.coord (v : Vec3) : Axis → ℚ
  | .x => v.x
  | .y => v.y
  | .z => v.z

/-- `struct Bounds { glm::vec3 origin; float sphereRadius; glm::vec3 extents; };` -/
structure Bounds where
  origin : Vec3
  sphereRadius : ℚ
  extents : Vec3
  deriving DecidableEq

/-- Modelled from the spec: the pass tag of a material, "opaque | transparent"
(`MaterialPass` is declared outside the two headers). -/
inductive MaterialPass where
  | Opaque
  | Transparent
  deriving DecidableEq

/-- Modelled from the spec: `MaterialInstance` (declared outside the two headers)
is a "pipeline handle, pipeline-layout handle, descriptor-set handle, and pass
tag". -/
structure MaterialInstance where
  pipeline : Nat
  layout : Nat
  materialSet : Nat
  passType : MaterialPass
  deriving DecidableEq

/-- `struct GLTFMaterial { MaterialInstance data; };` -/
structure GLTFMaterial where
  data : MaterialInstance
  deriving DecidableEq

/-- `struct GeoSurface { uint32_t startIndex; uint32_t count; Bounds bounds;
std::shared_ptr<GLTFMaterial> material; };` -/
structure GeoSurface where
  startIndex : Nat
  count : Nat
  bounds : Bounds
  material : GLTFMaterial
  deriving DecidableEq

/-- Modelled from the spec: `GPUMeshBuffers` (declared outside the two headers)
holds the "GPU buffer handles (vertex buffer + its GPU address, index buffer)". -/
structure GPUMeshBuffers where
  indexBuffer : Nat
  vertexBuffer : Nat
  vertexBufferAddress : Nat
  deriving DecidableEq

/-- `struct MeshAsset { std::string name; std::vector<GeoSurface> surfaces;
GPUMeshBuffers meshBuffers; };` -/
structure MeshAsset where
  name : String
  surfaces : List GeoSurface
  meshBuffers : GPUMeshBuffers
  deriving DecidableEq

/-- `struct RenderObject` (`vk_engine.h`, lines 20-29); the pointer `material`
is represented by the `MaterialInstance` it points to. -/
structure RenderObject where
  indexCount : Nat
  firstIndex : Nat
  indexBuffer : Nat
  material : MaterialInstance
  bounds : Bounds
  transform : Mat4
  vertexBufferAddress : Nat
  deriving DecidableEq

/-- `struct DrawContext { std::vector<RenderObject> OpaqueSurfaces;
std::vector<RenderObject> TransparentSurfaces; };` -/
structure DrawContext where
  OpaqueSurfaces : List RenderObject
  TransparentSurfaces : List RenderObject
  deriving DecidableEq

/-- Modelled from the spec: the "canonical clip volume", lower faces.  The
headers target Vulkan, whose clip volume is `-w ≤ x ≤ w`, `-w ≤ y ≤ w`,
`0 ≤ z ≤ w`, i.e. `-1 ≤ x ≤ 1`, `-1 ≤ y ≤ 1`, `0 ≤ z ≤ 1` after division by `w`. -/
def clipLo : Vec3 := ⟨-1, -1, 0⟩

/-- Modelled from the spec: the "canonical clip volume", upper faces. -/
def clipHi : Vec3 := ⟨1, 1, 1⟩

/-- Modelled from the spec: the "projected" position of a clip-space point, its
homogeneous coordinates divided by `w`, which is how homogeneous coordinates are
compared with the canonical volume.  In exact arithmetic a `w` of 0 yields 0,
where floating point yields an infinity or a NaN. -/
def Vec4.project (v : Vec4) : Vec3 := ⟨v.x / v.w, v.y / v.w, v.z / v.w⟩

/-- The 8 sign combinations that select the corners of a box. -/
def cornerSigns : List (ℚ × ℚ × ℚ) :=
  [(1, 1, 1), (1, 1, -1), (1, -1, 1), (1, -1, -1),
   (-1, 1, 1), (-1, 1, -1), (-1, -1, 1), (-1, -1, -1)]

/-- The point `origin + t * extents` (componentwise) of a box; the box is the set
of these points for `t` in `[-1, 1]³`. -/
def Bounds.point (b : Bounds) (t : ℚ × ℚ × ℚ) : Vec3 :=
  ⟨b.origin.x + t.1 * b.extents.x, b.origin.y + t.2.1 * b.extents.y,
   b.origin.z + t.2.2 * b.extents.z⟩

/-- Modelled from the spec: "the 8 corners of the surface's bounds (origin ±
extents)". -/
def Bounds.corners (b : Bounds) : List Vec3 := cornerSigns.map b.point

/-- Modelled from the spec: "transform the 8 corners ... by the combined
`viewproj × worldTransform` into clip space", then project them. -/
def projectedCorners (obj : RenderObject) (viewproj : Mat4) : List Vec3 :=
  obj.bounds.corners.map fun c =>
    ((viewproj.mul obj.transform).mulVec ⟨c.x, c.y, c.z, 1⟩).project

/-- Smallest coordinate of the points on an axis (`none` for no points). -/
def boxMin (ps : List Vec3) (a : Axis) : Option ℚ :=
  match ps with
  | [] => none
  | p :: ps => some (ps.foldl (fun acc q => min acc (q.coord a)) (p.coord a))

/-- Largest coordinate of the points on an axis (`none` for no points). -/
def boxMax (ps : List Vec3) (a : Axis) : Option ℚ :=
  match ps with
  | [] => none
  | p :: ps => some (ps.foldl (fun acc q => max acc (q.coord a)) (p.coord a))

/-- Modelled from the spec: the "projected extent lies entirely outside the clip
volume" on the axis `a`: the bounding interval of the points on that axis is
wholly above the volume or wholly below it. -/
def outsideOnAxis (ps : List Vec3) (a : Axis) : Bool :=
  match boxMin ps a, boxMax ps a with
  | some mn, some mx => decide (clipHi.coord a < mn) || decide (mx < clipLo.coord a)
  | _, _ => false

/-- Modelled from the spec: `bool is_visible(const RenderObject& obj, const
glm::mat4& viewproj)`, whose body is outside the two headers: "compute the
axis-aligned bounding box of the resulting homogeneous coordinates against the
canonical clip volume; the object is visible unless its projected extent lies
entirely outside the clip volume on at least one axis". -/
def is_visible (obj : RenderObject) (viewproj : Mat4) : Bool :=
  !([Axis.x, Axis.y, Axis.z].any (outsideOnAxis (projectedCorners obj viewproj)))

/-- Modelled from the spec: `Node` (declared outside the two headers), a "tree
entity" that "owns its children", with "a local transform and a derived world
transform", in its "two variants: plain group node (no geometry) and mesh node
(references a mesh asset)"; `MeshNode` is the second variant
(`struct MeshNode : public Node { std::shared_ptr<MeshAsset> mesh; ... }`). -/
inductive Node where
  | group (localTransform worldTransform : Mat4) (children : List Node)
  | mesh (localTransform worldTransform : Mat4) (mesh : MeshAsset) (children : List Node)

/-- Modelled from the spec: the `RenderObject` a mesh node constructs for one
surface: "index count, first index, index-buffer handle, vertex-buffer GPU
address, pointer to a MaterialInstance, bounds, and a world transform". -/
def makeRenderObject (mesh : MeshAsset) (nodeMatrix : Mat4) (s : GeoSurface) : RenderObject :=
  { indexCount := s.count
    firstIndex := s.startIndex
    indexBuffer := mesh.meshBuffers.indexBuffer
    material := s.material.data
    bounds := s.bounds
    transform := nodeMatrix
    vertexBufferAddress := mesh.meshBuffers.vertexBufferAddress }

/-- Modelled from the spec: appending a `RenderObject` "to `ctx`'s opaque or
transparent sequence according to the surface's material pass". -/
def DrawContext.append (ctx : DrawContext) (obj : RenderObject) : DrawContext :=
  match obj.material.passType with
  | .Opaque => { ctx with OpaqueSurfaces := ctx.OpaqueSurfaces ++ [obj] }
  | .Transparent => { ctx with TransparentSurfaces := ctx.TransparentSurfaces ++ [obj] }

/-- Modelled from the spec: the surface loop of `MeshNode::Draw`, "for every
surface of their referenced mesh, test visibility and on success construct a
RenderObject and append it". -/
def drawSurfaces (viewproj : Mat4) (mesh : MeshAsset) (nodeMatrix : Mat4) :
    List GeoSurface → DrawContext → DrawContext
  | [], ctx => ctx
  | s :: ss, ctx =>
      let obj := makeRenderObject mesh nodeMatrix s
      drawSurfaces viewproj mesh nodeMatrix ss
        (if is_visible obj viewproj then ctx.append obj else ctx)

mutual
/-- Modelled from the spec: `virtual void Draw(const glm::mat4& topMatrix,
DrawContext& ctx)`, whose bodies are outside the two headers: "group nodes
simply recurse into children with `topMatrix × localTransform`"; mesh nodes run
the surface loop, "then recurse into children".  `viewproj` is the camera's
combined view-projection matrix of the frame. -/
def Node.Draw (viewproj : Mat4) : Node → Mat4 → DrawContext → DrawContext
  | .group l _ children, topMatrix, ctx =>
      Node.DrawChildren viewproj children (topMatrix.mul l) ctx
  | .mesh l _ asset children, topMatrix, ctx =>
      Node.DrawChildren viewproj children (topMatrix.mul l)
        (drawSurfaces viewproj asset (topMatrix.mul l) asset.surfaces ctx)
/-- Modelled from the spec: the recursion of `Draw` into a node's children, in order. -/
def Node.DrawChildren (viewproj : Mat4) :
    List Node → Mat4 → DrawContext → DrawContext
  | [], _, ctx => ctx
  | n :: ns, m, ctx => Node.DrawChildren viewproj ns m (Node.Draw viewproj n m ctx)
end

/-- Every `RenderObject` of a draw context, opaque ones first. -/
def DrawContext.all (ctx : DrawContext) : List RenderObject :=
  ctx.OpaqueSurfaces ++ ctx.TransparentSurfaces

/-! ## Sample inputs -/

/-- A functor that appends its label to a log; the program state is the log. -/
def recorder (label : Nat) (log : List Nat) : List Nat := log ++ [label]

/-- A sample interleaving of pushes and flushes. -/
def sampleOps : List (Op Nat) :=
  [Op.push 1, Op.push 2, Op.flush, Op.push 3, Op.flush, Op.push 4]

/-- The loop started at distance `n` from `rend()` calls the first `n` functors
of the deque, last one first. -/
theorem flushLoop_eq {α W : Type} (exec : α → W → W) (d : List α) :
    ∀ (n : Nat) (h : n ≤ d.length) (w : W) (c : List α),
      flushLoop exec d n h (w, c) = ((d.take n).foldr exec w, c ++ (d.take n).reverse) := by
  intro n
  induction n with
  | zero => intro h w c; simp [flushLoop]
  | succ n ih =>
    intro h w c
    have hn : n < d.length := h
    simp only [flushLoop]
    rw [ih]
    have ht : d.take (n + 1) = d.take n ++ [d.get ⟨n, hn⟩] := by
      rw [List.take_succ, List.getElem?_eq_getElem hn]; rfl
    rw [ht, List.foldr_append, List.reverse_append]
    simp

/-- Closed form of `flush`. -/
theorem flush_eq {α W : Type} (exec : α → W → W) (m : Machine α W) :
    flush exec m =
      ⟨⟨[]⟩, m.queue.deletors.foldr exec m.world, m.calls ++ m.queue.deletors.reverse⟩ := by
  simp [flush, flushLoop_eq]

/-- Closed form of a run of `push_function` calls. -/
theorem foldl_push_function {α W : Type} (As : List α) (m : Machine α W) :
    As.foldl push_function m = ⟨⟨m.queue.deletors ++ As⟩, m.world, m.calls⟩ := by
  induction As generalizing m with
  | nil => simp
  | cons a As ih => simp [ih, push_function]

theorem runOps_snoc {α W : Type} (exec : α → W → W) (ops : List (Op α)) (op : Op α)
    (m : Machine α W) : runOps exec (ops ++ [op]) m = step exec (runOps exec ops m) op := by
  simp [runOps, List.foldl_append]

theorem pushedSince_snoc_push {α : Type} (ops : List (Op α)) (f : α) :
    pushedSinceLastFlush (ops ++ [Op.push f]) = pushedSinceLastFlush ops ++ [f] := by
  simp [pushedSinceLastFlush, List.takeWhile_cons, Op.isPush, Op.pushed?, List.filterMap_append]

theorem pushedSince_snoc_flush {α : Type} (ops : List (Op α)) :
    pushedSinceLastFlush (ops ++ [Op.flush]) = [] := by
  simp [pushedSinceLastFlush, List.takeWhile_cons, Op.isPush]

theorem pushedBefore_snoc_push {α : Type} (ops : List (Op α)) (f : α) :
    pushedBeforeLastFlush (ops ++ [Op.push f]) = pushedBeforeLastFlush ops := by
  simp [pushedBeforeLastFlush, List.dropWhile_cons, Op.isPush]

theorem allPushed_split {α : Type} (ops : List (Op α)) :
    allPushed ops = pushedBeforeLastFlush ops ++ pushedSinceLastFlush ops := by
  unfold allPushed pushedBeforeLastFlush pushedSinceLastFlush
  rw [← List.filterMap_append, ← List.reverse_append, List.takeWhile_append_dropWhile,
    List.reverse_reverse]

theorem pushedBefore_snoc_flush {α : Type} (ops : List (Op α)) :
    pushedBeforeLastFlush (ops ++ [Op.flush]) = allPushed ops := by
  simp [pushedBeforeLastFlush, allPushed, List.dropWhile_cons, Op.isPush, List.filterMap_append,
    Op.pushed?]

/-- What holds after every run of calls on a fresh queue: the queue holds the
functors pushed since the last flush, the invocation record is a rearrangement
of the functors pushed before the last flush, and the program state is the
result of the recorded invocations. -/
theorem runOps_inv {α W : Type} (exec : α → W → W) (w : W) (ops : List (Op α)) :
    (runOps exec ops (Machine.init w)).queue.deletors = pushedSinceLastFlush ops ∧
    (runOps exec ops (Machine.init w)).calls.Perm (pushedBeforeLastFlush ops) ∧
    (runOps exec ops (Machine.init w)).world =
      (runOps exec ops (Machine.init w)).calls.foldl (fun s f => exec f s) w := by
  induction ops using List.reverseRecOn with
  | nil =>
    simp [runOps, Machine.init, DeletionQueue.empty, pushedSinceLastFlush, pushedBeforeLastFlush]
  | append_singleton ops op ih =>
    obtain ⟨h1, h2, h3⟩ := ih
    rw [runOps_snoc]
    cases op with
    | push f =>
      simp only [step, push_function]
      rw [pushedSince_snoc_push, pushedBefore_snoc_push, h1]
      exact ⟨rfl, h2, h3⟩
    | flush =>
      simp only [step, flush_eq]
      rw [pushedSince_snoc_flush, pushedBefore_snoc_flush, allPushed_split, h1]
      refine ⟨rfl, ?_, ?_⟩
      · exact (h2.append_right _).trans (List.Perm.append_left _ (List.reverse_perm _))
      · rw [List.foldl_append, ← h3, List.foldl_reverse]

/-- The invocation record of a run, from any starting state, flush by flush. -/
theorem runOps_calls {α W : Type} (exec : α → W → W) (ops : List (Op α)) (m : Machine α W) :
    (runOps exec ops m).calls = m.calls ++ executedBy ops m.queue.deletors := by
  induction ops generalizing m with
  | nil => simp [runOps, executedBy]
  | cons op ops ih =>
    have hstep : runOps exec (op :: ops) m = runOps exec ops (step exec m op) := rfl
    rw [hstep, ih]
    cases op with
    | push f => simp [step, push_function, executedBy]
    | flush => simp [step, flush_eq, executedBy]

/-- C1: for every sequence of functors `A1..Ak` registered with `push_function`
on a fresh queue, `flush()` invokes `Ak, ..., A1` in exactly that order, each
once: the invocation record is the registration list reversed and has `k`
entries, the functor registered at position `i` is invocation number
`k - 1 - i` (so for `i < j` the one registered at `j` runs before the one
registered at `i`), and the program state afterwards is
`A1 (A2 (... (Ak w)))`. -/
theorem flush_executes_in_reverse_registration_order {α W : Type} (exec : α → W → W)
    (As : List α) (w : W) :
    (flush exec (As.foldl push_function (Machine.init w))).calls = As.reverse ∧
    (flush exec (As.foldl push_function (Machine.init w))).calls.length = As.length ∧
    (∀ i j, i < j → j < As.length →
      As.length - 1 - j < As.length - 1 - i ∧
      (flush exec (As.foldl push_function (Machine.init w))).calls[As.length - 1 - j]? = As[j]? ∧
      (flush exec (As.foldl push_function (Machine.init w))).calls[As.length - 1 - i]? = As[i]?) ∧
    (flush exec (As.foldl push_function (Machine.init w))).world = As.foldr exec w := by
  have hc : (flush exec (As.foldl push_function (Machine.init w))).calls = As.reverse := by
    simp [foldl_push_function, flush_eq, Machine.init, DeletionQueue.empty]
  have hpos : ∀ i, i < As.length → As.reverse[As.length - 1 - i]? = As[i]? := by
    intro i hi
    rw [List.getElem?_reverse (by omega)]
    congr 1
    omega
  refine ⟨hc, by rw [hc, List.length_reverse], ?_, ?_⟩
  · intro i j hij hj
    rw [hc]
    exact ⟨by omega, hpos j hj, hpos i (by omega)⟩
  · simp [foldl_push_function, flush_eq, Machine.init, DeletionQueue.empty]

/-- C1 at a concrete input: three recorders labelled 1, 2, 3 are invoked in the
order 3, 2, 1 and leave the log `[3, 2, 1]`. -/
theorem flush_executes_in_reverse_registration_order_witness :
    (flush recorder ([1, 2, 3].foldl push_function (Machine.init []))).calls = [3, 2, 1] ∧
    (flush recorder ([1, 2, 3].foldl push_function (Machine.init []))).world = [3, 2, 1] :=
  ⟨(flush_executes_in_reverse_registration_order recorder [1, 2, 3] []).1,
   (flush_executes_in_reverse_registration_order recorder [1, 2, 3] []).2.2.2⟩

/-- C2: from every state, `flush()` leaves the deque empty, and a second
`flush()` right after it invokes nothing: the invocation record and the program
state stay as the first flush left them, and the state after two flushes is the
state after one. -/
theorem flush_twice_is_flush {α W : Type} (exec : α → W → W) (m : Machine α W) :
    (flush exec m).queue.deletors = [] ∧
    (flush exec (flush exec m)).calls = (flush exec m).calls ∧
    (flush exec (flush exec m)).world = (flush exec m).world ∧
    flush exec (flush exec m) = flush exec m := by
  simp [flush_eq]

/-- C4: `push_function(a)` on a queue holding `A1..Ak` leaves it holding
`A1..Ak, a`: the deque is the old one with `a` appended, one longer, every old
position holds what it held, the new last position holds `a`, and the push
invokes nothing (invocation record and program state are unchanged). -/
theorem push_function_appends_without_running {α W : Type} (m : Machine α W) (a : α) :
    (push_function m a).queue.deletors = m.queue.deletors ++ [a] ∧
    (push_function m a).queue.deletors.length = m.queue.deletors.length + 1 ∧
    (∀ i, i < m.queue.deletors.length →
      (push_function m a).queue.deletors[i]? = m.queue.deletors[i]?) ∧
    (push_function m a).queue.deletors[m.queue.deletors.length]? = some a ∧
    (push_function m a).calls = m.calls ∧
    (push_function m a).world = m.world := by
  refine ⟨rfl, by simp [push_function], ?_, by simp [push_function], rfl, rfl⟩
  intro i hi
  simp [push_function, List.getElem?_append_left hi]

/-- C10: for every finite interleaving `ops` of `push_function` and `flush` calls
on a fresh queue: each `flush` adds to the invocation record exactly the
functors pushed since the previous flush (or since construction), last pushed
first; the whole record is the flush-by-flush description `executedBy`; it is a
rearrangement of the functors pushed before the last flush, so each of those
has run exactly once per registration; the functors pushed after the last flush
are still in the deque and have not run; and when the pushed functors are
pairwise distinct no functor occurs twice in the record. -/
theorem interleaved_pushes_and_flushes {α W : Type} (exec : α → W → W) (ops : List (Op α))
    (w : W) :
    (∀ pre post, ops = pre ++ Op.flush :: post →
      (runOps exec (pre ++ [Op.flush]) (Machine.init w)).calls =
        (runOps exec pre (Machine.init w)).calls ++ (pushedSinceLastFlush pre).reverse) ∧
    (runOps exec ops (Machine.init w)).calls = executedBy ops [] ∧
    (runOps exec ops (Machine.init w)).calls.Perm (pushedBeforeLastFlush ops) ∧
    (runOps exec ops (Machine.init w)).queue.deletors = pushedSinceLastFlush ops ∧
    allPushed ops = pushedBeforeLastFlush ops ++ pushedSinceLastFlush ops ∧
    ((allPushed ops).Nodup →
      (runOps exec ops (Machine.init w)).calls.Nodup ∧
      ∀ f ∈ (runOps exec ops (Machine.init w)).queue.deletors,
        f ∉ (runOps exec ops (Machine.init w)).calls) ∧
    (runOps exec ops (Machine.init w)).world =
      (runOps exec ops (Machine.init w)).calls.foldl (fun s f => exec f s) w := by
  obtain ⟨h1, h2, h3⟩ := runOps_inv exec w ops
  refine ⟨?_, ?_, h2, h1, allPushed_split ops, ?_, h3⟩
  · intro pre post _
    rw [runOps_snoc]
    simp only [step, flush_eq]
    rw [(runOps_inv exec w pre).1]
  · rw [runOps_calls]
    simp [Machine.init, DeletionQueue.empty]
  · intro hnd
    rw [allPushed_split] at hnd
    have hnd2 : ((runOps exec ops (Machine.init w)).calls ++
        (runOps exec ops (Machine.init w)).queue.deletors).Nodup := by
      rw [h1]
      exact (List.Perm.nodup_iff (h2.append_right _)).mpr hnd
    refine ⟨hnd2.of_append_left, ?_⟩
    intro f hf hc
    exact (List.nodup_append.mp hnd2).2.2 hc hf

/-- C10 at a concrete input: push 1, push 2, flush, push 3, flush, push 4 invokes
2, 1, 3 in that order and leaves 4 in the deque. -/
theorem interleaved_pushes_and_flushes_witness :
    (runOps recorder sampleOps (Machine.init [])).calls = [2, 1, 3] ∧
    (runOps recorder sampleOps (Machine.init [])).queue.deletors = [4] ∧
    (runOps recorder sampleOps (Machine.init [])).world = [2, 1, 3] :=
  ⟨(interleaved_pushes_and_flushes recorder sampleOps []).2.1,
   (interleaved_pushes_and_flushes recorder sampleOps []).2.2.2.1,
   (interleaved_pushes_and_flushes recorder sampleOps []).2.2.2.2.2.2.trans (by decide)⟩

/-! ## Theorems: frame ring buffer -/

/-- The subscript is the frame number modulo 2, as a mathematical (never
negative) remainder. -/
theorem frameIndex_eq_emod (n : Int) : (frameIndex n : Int) = n % 2 := by
  unfold frameIndex toUnsigned FRAME_OVERLAP
  omega

/-- Wrapping leaves a value in the range of `int` alone. -/
theorem wrapInt_of_inRange (n : Int) (hlo : INT_MIN ≤ n) (hhi : n ≤ INT_MAX) : wrapInt n = n := by
  unfold wrapInt
  unfold INT_MIN at hlo
  unfold INT_MAX at hhi
  omega

/-- The wrapped value has the parity of the unwrapped one. -/
theorem frameIndex_wrapInt (z : Int) : frameIndex (wrapInt z) = frameIndex z := by
  have h1 := frameIndex_eq_emod (wrapInt z)
  have h2 := frameIndex_eq_emod z
  have hw : wrapInt z = (z + 2147483648) % 4294967296 - 2147483648 := rfl
  generalize wrapInt z = v at h1 hw ⊢
  omega

/-- C3: for every value `n` of `_frameNumber`, `get_current_frame()` returns the
slot of `_frames` whose index is `n mod FRAME_OVERLAP`, with `FRAME_OVERLAP = 2`:
slot 0 for even `n`, slot 1 for odd `n`.  The subscript is computed as the code
does, from `n` converted to 32-bit unsigned and then reduced modulo 2. -/
theorem get_current_frame_is_slot_frameNumber_mod_overlap {FrameData : Type}
    (e : VulkanEngine FrameData) :
    FRAME_OVERLAP = 2 ∧
    frameIndex e._frameNumber = (e._frameNumber % 4294967296).toNat % 2 ∧
    (frameIndex e._frameNumber : Int) = e._frameNumber % (FRAME_OVERLAP : Int) ∧
    e.get_current_frame = e._frames[(e._frameNumber % (FRAME_OVERLAP : Int)).toNat]? ∧
    (Even e._frameNumber → e.get_current_frame = e._frames[0]?) ∧
    (Odd e._frameNumber → e.get_current_frame = e._frames[1]?) ∧
    (∃ slot, e.get_current_frame = some slot) := by
  have hidx := frameIndex_eq_emod e._frameNumber
  have hnat : (e._frameNumber % (FRAME_OVERLAP : Int)).toNat = frameIndex e._frameNumber := by
    unfold FRAME_OVERLAP
    omega
  refine ⟨rfl, rfl, ?_, ?_, ?_, ?_, ?_⟩
  · unfold FRAME_OVERLAP
    exact hidx
  · rw [hnat]; rfl
  · intro hev
    have h0 : frameIndex e._frameNumber = 0 := by
      have := Int.even_iff.mp hev
      omega
    unfold VulkanEngine.get_current_frame
    rw [h0]
  · intro hodd
    have h1 : frameIndex e._frameNumber = 1 := by
      have := Int.odd_iff.mp hodd
      omega
    unfold VulkanEngine.get_current_frame
    rw [h1]
  · have hlt : frameIndex e._frameNumber < e._frames.length := by
      rw [e.frames_size]
      unfold FRAME_OVERLAP
      omega
    exact ⟨e._frames[frameIndex e._frameNumber], List.getElem?_eq_getElem hlt⟩

/-- C5: frame slots are reused with period exactly `FRAME_OVERLAP = 2`: for
every frame number `n`, frame `n + 2` selects the slot of frame `n` and frame
`n + 1` selects the other slot, also when `n + 1` or `n + 2` has wrapped around
modulo `2^32` (as it does past `INT_MAX`, which wraps to `INT_MIN`). -/
theorem frame_slots_repeat_with_period_two {FrameData : Type} (e : VulkanEngine FrameData)
    (n : Int) :
    frameIndex (n + 2) = frameIndex n ∧
    frameIndex (n + 1) = 1 - frameIndex n ∧
    frameIndex (n + 1) ≠ frameIndex n ∧
    frameIndex (wrapInt (n + 2)) = frameIndex n ∧
    frameIndex (wrapInt (n + 1)) = 1 - frameIndex n ∧
    frameIndex (wrapInt (n + 1)) ≠ frameIndex n ∧
    (e.atFrame (n + 2)).get_current_frame = (e.atFrame n).get_current_frame ∧
    (e.atFrame (wrapInt (n + 2))).get_current_frame = (e.atFrame n).get_current_frame ∧
    (e.atFrame (n + 1)).get_current_frame = e._frames[1 - frameIndex n]? ∧
    (e.atFrame (wrapInt (n + 1))).get_current_frame = e._frames[1 - frameIndex n]? ∧
    (e.atFrame n).get_current_frame = e._frames[frameIndex n]? ∧
    wrapInt (INT_MAX + 1) = INT_MIN := by
  have h0 := frameIndex_eq_emod n
  have h1 := frameIndex_eq_emod (n + 1)
  have h2 := frameIndex_eq_emod (n + 2)
  have e2 : frameIndex (n + 2) = frameIndex n := by omega
  have e1 : frameIndex (n + 1) = 1 - frameIndex n := by omega
  have w2 : frameIndex (wrapInt (n + 2)) = frameIndex n := by rw [frameIndex_wrapInt, e2]
  have w1 : frameIndex (wrapInt (n + 1)) = 1 - frameIndex n := by rw [frameIndex_wrapInt, e1]
  refine ⟨e2, e1, by omega, w2, w1, by omega, ?_, ?_, ?_, ?_, rfl, by decide⟩
  · simp only [VulkanEngine.get_current_frame, VulkanEngine.atFrame, e2]
  · simp only [VulkanEngine.get_current_frame, VulkanEngine.atFrame, w2]
  · simp only [VulkanEngine.get_current_frame, VulkanEngine.atFrame, e1]
  · simp only [VulkanEngine.get_current_frame, VulkanEngine.atFrame, w1]

/-- C9: for every value of the `int` `_frameNumber`, negative values, `INT_MIN`
and `INT_MAX` included, the subscript `_frameNumber % FRAME_OVERLAP` of
`get_current_frame()` is 0 or 1, hence inside `_frames[FRAME_OVERLAP]`, and the
access yields a slot.  It is never negative because the remainder is taken after
the conversion to unsigned: at `-1` the subscript is 1, where the signed
(truncating) remainder would be `-1`. -/
theorem current_frame_subscript_in_bounds {FrameData : Type} (e : VulkanEngine FrameData) :
    (frameIndex e._frameNumber = 0 ∨ frameIndex e._frameNumber = 1) ∧
    frameIndex e._frameNumber < FRAME_OVERLAP ∧
    frameIndex e._frameNumber < e._frames.length ∧
    e.get_current_frame.isSome = true ∧
    (0 : Int) ≤ (frameIndex e._frameNumber : Int) ∧
    frameIndex (-1) = 1 ∧ frameIndex INT_MIN = 0 ∧ frameIndex INT_MAX = 1 ∧
    Int.tmod (-1) (FRAME_OVERLAP : Int) = -1 := by
  have hidx := frameIndex_eq_emod e._frameNumber
  have hlt : frameIndex e._frameNumber < e._frames.length := by
    rw [e.frames_size]
    unfold FRAME_OVERLAP
    omega
  refine ⟨by omega, by unfold FRAME_OVERLAP; omega, hlt, ?_, by omega, by decide, by decide,
    by decide, by decide⟩
  unfold VulkanEngine.get_current_frame
  rw [List.getElem?_eq_getElem hlt]
  rfl

/-! ## Theorems: fixed-format records -/

/-- An alignment that divides the 16 bytes of a `glm::vec4` is 1, 2, 4, 8 or 16. -/
theorem vec4_alignments (a : Nat) (h0 : 0 < a) (ha : a ∣ sizeof_vec4) :
    a = 1 ∨ a = 2 ∨ a = 4 ∨ a = 8 ∨ a = 16 := by
  have hle : a ≤ 16 := Nat.le_of_dvd (by decide) ha
  interval_cases a <;> first | (exfalso; revert ha; decide) | decide

/-- C6: `MaterialConstants` is 2 `vec4` members plus 14 `vec4` of padding, laid
out without gaps at offsets 0, 16 and 32 for whatever alignment `a` a `vec4`
has, i.e. `(2 + 14) * 4` floats of 4 bytes = exactly 256 bytes; so the `i`-th
record of a contiguously packed buffer starts at byte offset `i * 256`, a
multiple of 256, and so does the offset held in the 32-bit `dataBufferOffset`. -/
theorem materialConstants_is_256_bytes (a : Nat) (h0 : 0 < a) (ha : a ∣ sizeof_vec4) (i : Nat) :
    (MaterialConstants a).map Member.floats = [4, 4, 14 * 4] ∧
    floatCount (MaterialConstants a) = (2 + 14) * 4 ∧
    placeMembers (MaterialConstants a) 0 = ([0, 16, 32], 256) ∧
    sizeofStruct (MaterialConstants a) = (2 + 14) * 4 * sizeof_float ∧
    sizeofStruct (MaterialConstants a) = 256 ∧
    materialRecordOffset a i = i * 256 ∧
    256 ∣ materialRecordOffset a i ∧
    256 ∣ dataBufferOffset a i := by
  have hsize : sizeofStruct (MaterialConstants a) = 256 := by
    rcases vec4_alignments a h0 ha with h | h | h | h | h <;> subst h <;> decide
  have hplace : placeMembers (MaterialConstants a) 0 = ([0, 16, 32], 256) := by
    rcases vec4_alignments a h0 ha with h | h | h | h | h <;> subst h <;> decide
  have hoff : materialRecordOffset a i = i * 256 := by
    unfold materialRecordOffset
    rw [hsize]
  refine ⟨rfl, rfl, hplace, by rw [hsize]; rfl, hsize, hoff, ?_, ?_⟩
  · rw [hoff]
    exact Dvd.intro_left i rfl
  · unfold dataBufferOffset
    rw [hoff]
    omega

/-- C6 at a concrete input: a `vec4` aligned like a `float` (4 bytes), material
index 3. -/
theorem materialConstants_is_256_bytes_witness :
    0 < 4 ∧ 4 ∣ sizeof_vec4 ∧ sizeofStruct (MaterialConstants 4) = 256 ∧
      materialRecordOffset 4 3 = 3 * 256 ∧ 256 ∣ materialRecordOffset 4 3 :=
  ⟨by decide, by decide,
    (materialConstants_is_256_bytes 4 (by decide) (by decide) 3).2.2.2.2.1,
    (materialConstants_is_256_bytes 4 (by decide) (by decide) 3).2.2.2.2.2.1,
    (materialConstants_is_256_bytes 4 (by decide) (by decide) 3).2.2.2.2.2.2.1⟩

/-- C7: `ComputePushConstants` consists of exactly 4 slots of 4 floats each (16
floats), laid out without gaps at offsets 0, 16, 32 and 48 for whatever
alignment `a` a `vec4` has, totalling `4 * 4 * 4 = 64` bytes. -/
theorem computePushConstants_is_64_bytes (a : Nat) (h0 : 0 < a) (ha : a ∣ sizeof_vec4) :
    (ComputePushConstants a).length = 4 ∧
    (∀ m ∈ ComputePushConstants a, m.floats = 4 ∧ m.size = 4 * sizeof_float) ∧
    floatCount (ComputePushConstants a) = 16 ∧
    placeMembers (ComputePushConstants a) 0 = ([0, 16, 32, 48], 64) ∧
    sizeofStruct (ComputePushConstants a) = 4 * 4 * sizeof_float ∧
    sizeofStruct (ComputePushConstants a) = 64 := by
  have hsize : sizeofStruct (ComputePushConstants a) = 64 := by
    rcases vec4_alignments a h0 ha with h | h | h | h | h <;> subst h <;> decide
  have hplace : placeMembers (ComputePushConstants a) 0 = ([0, 16, 32, 48], 64) := by
    rcases vec4_alignments a h0 ha with h | h | h | h | h <;> subst h <;> decide
  refine ⟨rfl, ?_, rfl, hplace, by rw [hsize]; rfl, hsize⟩
  intro m hm
  simp only [ComputePushConstants, List.mem_cons, List.mem_singleton, List.not_mem_nil,
    or_false, or_self] at hm
  subst hm
  exact ⟨rfl, rfl⟩

/-- C7 at a concrete input: a `vec4` aligned to its full 16 bytes. -/
theorem computePushConstants_is_64_bytes_witness :
    0 < 16 ∧ 16 ∣ sizeof_vec4 ∧ sizeofStruct (ComputePushConstants 16) = 64 ∧
      floatCount (ComputePushConstants 16) = 16 :=
  ⟨by decide, by decide,
    (computePushConstants_is_64_bytes 16 (by decide) (by decide)).2.2.2.2.2,
    (computePushConstants_is_64_bytes 16 (by decide) (by decide)).2.2.1⟩

/-! ## Theorems: visibility and the draw list -/

/-- The objects of a context after one append: the old ones and the new one. -/
theorem mem_append_all (ctx : DrawContext) (obj r : RenderObject) :
    r ∈ (ctx.append obj).all ↔ r ∈ ctx.all ∨ r = obj := by
  unfold DrawContext.append DrawContext.all
  cases obj.material.passType <;> simp <;> tauto

/-- The surface loop adds exactly the render objects of the visible surfaces. -/
theorem mem_drawSurfaces_all (viewproj : Mat4) (asset : MeshAsset) (nodeMatrix : Mat4)
    (r : RenderObject) :
    ∀ (ss : List GeoSurface) (ctx : DrawContext),
      r ∈ (drawSurfaces viewproj asset nodeMatrix ss ctx).all ↔
        r ∈ ctx.all ∨
          ∃ s ∈ ss, r = makeRenderObject asset nodeMatrix s ∧ is_visible r viewproj = true := by
  intro ss
  induction ss with
  | nil => intro ctx; simp [drawSurfaces]
  | cons s ss ih =>
    intro ctx
    simp only [drawSurfaces, ih, List.mem_cons, exists_eq_or_imp]
    by_cases hv : is_visible (makeRenderObject asset nodeMatrix s) viewproj = true
    · simp only [hv, if_true, mem_append_all]
      constructor
      · rintro ((h | h) | h)
        · exact Or.inl h
        · exact Or.inr (Or.inl ⟨h, h ▸ hv⟩)
        · exact Or.inr (Or.inr h)
      · rintro (h | ⟨h, _⟩ | h)
        · exact Or.inl (Or.inl h)
        · exact Or.inl (Or.inr h)
        · exact Or.inr h
    · simp only [hv, if_false]
      constructor
      · rintro (h | h)
        · exact Or.inl h
        · exact Or.inr (Or.inr h)
      · rintro (h | ⟨h, hr⟩ | h)
        · exact Or.inl h
        · exact absurd (h ▸ hr) hv
        · exact Or.inr h

mutual
/-- Drawing a node keeps what the context held and adds only visible objects. -/
theorem Draw_adds_only_visible (viewproj : Mat4) :
    ∀ (n : Node) (topMatrix : Mat4) (ctx : DrawContext) (r : RenderObject),
      r ∈ (Node.Draw viewproj n topMatrix ctx).all →
        r ∈ ctx.all ∨ is_visible r viewproj = true
  | .group l _ children, topMatrix, ctx, r => by
    rw [Node.Draw]
    exact DrawChildren_adds_only_visible viewproj children (topMatrix.mul l) ctx r
  | .mesh l _ asset children, topMatrix, ctx, r => by
    rw [Node.Draw]
    intro h
    rcases DrawChildren_adds_only_visible viewproj children (topMatrix.mul l) _ r h with h | h
    · rcases (mem_drawSurfaces_all viewproj asset _ r _ ctx).mp h with h | ⟨_, _, _, hv⟩
      · exact Or.inl h
      · exact Or.inr hv
    · exact Or.inr h
/-- Drawing a list of nodes keeps what the context held and adds only visible
objects. -/
theorem DrawChildren_adds_only_visible (viewproj : Mat4) :
    ∀ (ns : List Node) (m : Mat4) (ctx : DrawContext) (r : RenderObject),
      r ∈ (Node.DrawChildren viewproj ns m ctx).all →
        r ∈ ctx.all ∨ is_visible r viewproj = true
  | [], _, ctx, r => by
    rw [Node.DrawChildren]
    exact Or.inl
  | n :: ns, m, ctx, r => by
    rw [Node.DrawChildren]
    intro h
    rcases DrawChildren_adds_only_visible viewproj ns m _ r h with h | h
    · exact Draw_adds_only_visible viewproj n m ctx r h
    · exact Or.inr h
end

end SacredEngine
